import Mathlib

/-
  Verification development for the EnergyDataAnalytics repository
  (src/EnergyTrendAnalysis.py and its test file).

  The Python source is shallowly embedded below.  All string handling is done
  on explicit character lists so that each Python string primitive
  (str.strip, str.replace, str.split, substring containment, the concrete
  regular expressions of the script) has a faithful executable Lean
  counterpart.  Machine reals never enter the properties under study: the
  claims are about control flow, string transformations and row counts.
-/

namespace EnergyTrend

/-! ### Python string primitives -/

/-- Python whitespace characters (the set stripped by str.strip). -/
def isWs (c : Char) : Bool :=
  c = ' ' || c = '\t' || c = '\n' || c = '\r' || c = '\x0b' || c = '\x0c'

/-- str.strip on a character list: drop whitespace from both ends. -/
def trimWsL (l : List Char) : List Char :=
  ((l.dropWhile isWs).reverse.dropWhile isWs).reverse

/-- Python str.strip. -/
def pyStrip (s : String) : String := ⟨trimWsL s.data⟩

/-- Worker for str.replace: leftmost, non-overlapping replacement of a
nonempty pattern.  The fuel argument is always instantiated with the length
of the scanned list, which suffices because every step consumes at least one
character. -/
def replaceGo (pat rep : List Char) : Nat → List Char → List Char
  | 0, l => l
  | _ + 1, [] => []
  | fuel + 1, c :: rest =>
    if pat.isPrefixOf (c :: rest) then
      rep ++ replaceGo pat rep fuel ((c :: rest).drop pat.length)
    else
      c :: replaceGo pat rep fuel rest

/-- Python str.replace (all non-overlapping occurrences, left to right). -/
def pyReplace (s pat rep : String) : String :=
  ⟨replaceGo pat.data rep.data s.data.length s.data⟩

/-- Python str.split(sep) for a single-character separator: keeps empty
fields, and the empty string yields one empty field. -/
def splitChar (sep : Char) : List Char → List (List Char)
  | [] => [[]]
  | c :: rest =>
    if c = sep then [] :: splitChar sep rest
    else
      match splitChar sep rest with
      | [] => [[c]]
      | g :: gs => (c :: g) :: gs

/-- Python substring containment (the `in` operator on str). -/
def infixOfL (pat : List Char) : List Char → Bool
  | [] => pat.isEmpty
  | c :: rest => pat.isPrefixOf (c :: rest) || infixOfL pat rest

/-- Substring containment at the String level. -/
def infixStr (pat s : String) : Bool := infixOfL pat.data s.data

/-- Python str.startswith. -/
def startsWithStr (pat s : String) : Bool := pat.data.isPrefixOf s.data

/-- Python str.endswith (used only to state what the spec claims). -/
def endsWithStr (pat s : String) : Bool := pat.data.isSuffixOf s.data

/-- Python str.isdigit restricted to ASCII digits: nonempty and all digits. -/
def isDigitStrL (l : List Char) : Bool := !l.isEmpty && l.all Char.isDigit

/-- str.isdigit at the String level. -/
def isDigitStr (s : String) : Bool := isDigitStrL s.data

/-! ### quarter_to_tuple (src/EnergyTrendAnalysis.py lines 87-99)

The script parses quarter labels with
re.match applied to the pattern of four digits, a space, one or two digits,
one of the suffixes st, nd, rd, th, and the word quarter.  re.match anchors
at the start of the string only, so trailing text is accepted; the quarter
number is any 1-2 digit value and the suffix is not required to agree with
it. -/

/-- Numeric value of an ASCII digit character. -/
def digitVal (c : Char) : Nat := c.toNat - 48

/-- The two-character ordinal suffixes st, nd, rd, th. -/
def isSfx2 (a b : Char) : Bool :=
  (a = 's' && b = 't') || (a = 'n' && b = 'd') || (a = 'r' && b = 'd') ||
    (a = 't' && b = 'h')

/-- The literal tail of the regular expression: a space then the word
quarter. -/
def qtrWord : List Char := [' ', 'q', 'u', 'a', 'r', 't', 'e', 'r']

/-- Does the list start with an ordinal suffix followed by the literal
space-quarter word (trailing characters allowed, mirroring re.match)? -/
def sfxOk (cs : List Char) : Bool :=
  match cs with
  | a :: b :: rest => isSfx2 a b && qtrWord.isPrefixOf rest
  | _ => false

/-- Core of quarter_to_tuple: prefix-match the regular expression
of the script against a character list.  The one-or-two digit group is
greedy with regex backtracking; because no suffix starts with a digit, the
greedy choice is deterministic and is encoded directly.  Any string of
fewer than seven characters falls through to the final case: a match needs
at least the four digits, the space, one quarter digit and a suffix, so
this agrees with the regular expression. -/
def quarterToTupleCore (cs : List Char) : Option (Nat × Nat) :=
  match cs with
  | d1 :: d2 :: d3 :: d4 :: sp :: q1 :: q2 :: rest2 =>
    if d1.isDigit && d2.isDigit && d3.isDigit && d4.isDigit && (sp = ' ') &&
        q1.isDigit then
      if q2.isDigit then
        if sfxOk rest2 then
          some (digitVal d1 * 1000 + digitVal d2 * 100 + digitVal d3 * 10 +
            digitVal d4, digitVal q1 * 10 + digitVal q2)
        else none
      else if sfxOk (q2 :: rest2) then
        some (digitVal d1 * 1000 + digitVal d2 * 100 + digitVal d3 * 10 +
          digitVal d4, digitVal q1)
      else none
    else none
  | _ => none

/-- quarter_to_tuple, with the ValueError branch modelled as none. -/
def quarterToTupleQ (s : String) : Option (Nat × Nat) :=
  quarterToTupleCore s.data

/-- The valid ordinal suffixes as lists. -/
def sfxList : List (List Char) := [['s', 't'], ['n', 'd'], ['r', 'd'], ['t', 'h']]

/-- Specification-side characterisation of the strings accepted by the
script's quarter regular expression: four digit characters, a space, one or
two digit characters, an ordinal suffix, the literal space-quarter word, and
then arbitrary trailing text. -/
def ValidQuarterPrefix (cs : List Char) (y q : Nat) : Prop :=
  ∃ (d1 d2 d3 d4 : Char) (qd sfx rest : List Char),
    cs = d1 :: d2 :: d3 :: d4 :: ' ' :: (qd ++ sfx ++ qtrWord ++ rest) ∧
    (d1.isDigit ∧ d2.isDigit ∧ d3.isDigit ∧ d4.isDigit) ∧
    ((∃ e1, qd = [e1] ∧ e1.isDigit ∧ q = digitVal e1) ∨
      (∃ e1 e2, qd = [e1, e2] ∧ e1.isDigit ∧ e2.isDigit ∧
        q = digitVal e1 * 10 + digitVal e2)) ∧
    sfx ∈ sfxList ∧
    y = digitVal d1 * 1000 + digitVal d2 * 100 + digitVal d3 * 10 + digitVal d4

/-! ### Bracket stripping (line 129)

The gate's max key applies re.sub removing a run of whitespace, an opening
square bracket, a greedy body and the closing bracket.  On newline-free
input (all column names have had newlines replaced by spaces already) this
removes at most one region: from the first opening bracket that has a later
closing bracket, extended left over whitespace, through the last closing
bracket of the string.  After that removal no closing bracket remains, so
re.sub finds no further match.  The definition below encodes exactly that
characterisation. -/

/-- re.sub of the bracketed-annotation pattern, for newline-free input.
The first branch is the no-bracket case; the second removes from the first
opening bracket, extended left over adjacent whitespace, through the last
closing bracket, provided some closing bracket follows the first opening
one. -/
def stripBracketsL (cs : List Char) : List Char :=
  if (cs.takeWhile (fun c => c ≠ '[')).length = cs.length then cs
  else if (cs.drop ((cs.takeWhile (fun c => c ≠ '[')).length + 1)).contains ']'
  then
    ((cs.takeWhile (fun c => c ≠ '[')).reverse.dropWhile isWs).reverse ++
      (cs.reverse.takeWhile (fun c => c ≠ ']')).reverse
  else cs

/-- Bracket stripping at the String level. -/
def stripBrackets (s : String) : String := ⟨stripBracketsL s.data⟩

/-! ### check_excel_for_latest_quarter (lines 104-147) -/

/-- Header normalisation of pandas columns at line 117: strip, then replace
newlines by spaces. -/
def normCol (s : String) : String := pyReplace (pyStrip s) "\n" " "

/-- The quarter-column filter at line 122 uses the same regular expression
as quarter_to_tuple (with a redundant leading anchor), as a prefix match. -/
def quarterColMatch (s : String) : Bool := (quarterToTupleQ s).isSome

/-- The key function of the max call at line 129: parse after bracket
stripping; none models the ValueError raised on parse failure. -/
def gateKey (s : String) : Option (Nat × Nat) := quarterToTupleQ (stripBrackets s)

/-- Evaluate the max key on every column in order, as Python's max does;
none models the first key raising. -/
def keysOf : List String → Option (List (String × (Nat × Nat)))
  | [] => some []
  | x :: xs =>
    match gateKey x, keysOf xs with
    | some t, some ks => some ((x, t) :: ks)
    | _, _ => none

/-- Strict comparison of (year, quarter) tuples, as Python compares the
tuples returned by quarter_to_tuple. -/
def qGtP (a b : Nat × Nat) : Prop := b.1 < a.1 ∨ (a.1 = b.1 ∧ b.2 < a.2)

instance (a b : Nat × Nat) : Decidable (qGtP a b) := by
  unfold qGtP; infer_instance

/-- Boolean form of the tuple comparison. -/
def qGtB (a b : Nat × Nat) : Bool := decide (qGtP a b)

/-- Python max semantics: fold keeping the current element unless a later
one has a strictly greater key, so the first maximal element wins. -/
def pickMaxGo (acc : String × (Nat × Nat)) :
    List (String × (Nat × Nat)) → String × (Nat × Nat)
  | [] => acc
  | k :: rest => pickMaxGo (if qGtB k.2 acc.2 then k else acc) rest

/-- The ways the try block of check_excel_for_latest_quarter can raise. -/
inductive GateErr
  | emptyMax
  | parse
  deriving DecidableEq

/-- Core of the try block, taking the already filtered quarter columns and
the already stripped latest_quarter.  Python's max raises ValueError on an
empty sequence, and the key function raises on a parse failure. -/
def gateTryAux (qcols : List String) (latest nlatest : String) :
    Except GateErr (Bool × String) :=
  match qcols with
  | [] => Except.error GateErr.emptyMax
  | q0 :: qrest =>
    match keysOf (q0 :: qrest) with
    | none => Except.error GateErr.parse
    | some [] => Except.error GateErr.parse
    | some (k0 :: krest) =>
      match quarterToTupleQ (pickMaxGo k0 krest).1 with
      | none => Except.error GateErr.parse
      | some tIn =>
        match quarterToTupleQ nlatest with
        | none => Except.error GateErr.parse
        | some tLast =>
          if qGtB tIn tLast then Except.ok (true, (pickMaxGo k0 krest).1)
          else Except.ok (false, latest)

/-- The try block of check_excel_for_latest_quarter after a successful
download and sheet read: given the (already pandas-normalised source)
column headers and the persisted latest_quarter string, either return the
pair the function would return (having removed the scratch file), or raise.
Mirrors lines 116-143. -/
def gateTry (cols : List String) (latest : String) :
    Except GateErr (Bool × String) :=
  gateTryAux ((cols.map normCol).filter quarterColMatch) latest (pyStrip latest)

/-- check_excel_for_latest_quarter.  The first argument tells whether the
download (and sheet read) succeeded; on failure the raised error is caught
by the except clause.  The result pairs the returned value with a flag
recording whether os.remove ran on the scratch copy: both successful
branches remove it before returning (lines 137 and 142), while the except
branch at line 145 returns without removing it. -/
def check_excel (downloadOk : Bool) (cols : List String) (latest : String) :
    (Bool × String) × Bool :=
  if downloadOk then
    match gateTry cols latest with
    | Except.ok r => (r, true)
    | Except.error _ => ((false, latest), false)
  else ((false, latest), false)

/-- The parsed quarter tuples of the file's quarter columns, through the
same normalisation, filter and bracket-stripping key as the code. -/
def parsedQuarters (cols : List String) : List (Nat × Nat) :=
  ((cols.map normCol).filter quarterColMatch).filterMap gateKey

/-! ### retry_request and download_excel_file (lines 23-82)

Each download attempt either succeeds, raises an HTTPError (the
raise_for_status call on a 4xx or 5xx response; in the requests library
HTTPError is a subclass of RequestException), raises a connection-level
RequestException, or raises some other exception.  download_excel_file
re-raises whatever it catches, so the decorator sees the original
exception class.  The decorator retries exactly on RequestException and
sleeps current_delay before each re-test of the loop condition. -/

/-- Outcome of one download attempt. -/
inductive Attempt
  | ok
  | httpError
  | connError
  | otherError
  deriving DecidableEq

/-- Which attempt outcomes are requests.exceptions.RequestException: the
HTTPError raised by raise_for_status is a RequestException subclass, as is
every connection-level error. -/
def isRequestException : Attempt → Bool
  | Attempt.ok => false
  | Attempt.httpError => true
  | Attempt.connError => true
  | Attempt.otherError => false

/-- Result of running the wrapped function to completion. -/
inductive RunResult
  | success
  | raised (attempt : Nat)
  | exhausted
  deriving DecidableEq

/-- The while loop of the retry decorator: remaining iterations, index of
the next attempt, current delay, accumulated sleep delays. -/
def retryGo (f : Nat → Attempt) (backoff : Nat) :
    Nat → Nat → Nat → List Nat → RunResult × List Nat
  | 0, _, _, sleeps => (RunResult.exhausted, sleeps)
  | r + 1, i, d, sleeps =>
    match f i with
    | Attempt.ok => (RunResult.success, sleeps)
    | Attempt.otherError => (RunResult.raised i, sleeps)
    | _ => retryGo f backoff r (i + 1) (d * backoff) (sleeps ++ [d])

/-- retry_request with the decoration parameters used on
download_excel_file: max_retries 3, delay 5, backoff 2. -/
def retryDownload (f : Nat → Attempt) : RunResult × List Nat :=
  retryGo f 2 3 0 5 []

/-- The delay sequence slept by the retry loop when every attempt fails
with a RequestException. -/
def retryDelays : Nat → Nat → Nat → List Nat
  | 0, _, _ => []
  | r + 1, d, b => d :: retryDelays r (d * b) b

/-! ### rename_columns (lines 318-364) -/

/-- Step 1 of rename_columns, first replacement: underscore-newline becomes
a space. -/
def cleanStep1 (l : List Char) : List Char :=
  replaceGo ['_', '\n'] [' '] l.length l

/-- Step 1 of rename_columns, second replacement: newline becomes a
space. -/
def cleanStep2 (l : List Char) : List Char :=
  replaceGo ['\n'] [' '] (cleanStep1 l).length (cleanStep1 l)

/-- Step 1 of rename_columns, third replacement: underscore becomes a
space. -/
def cleanStep3 (l : List Char) : List Char :=
  replaceGo ['_'] [' '] (cleanStep2 l).length (cleanStep2 l)

/-- Step 1 of rename_columns: replace underscore-newline, newline and
underscore by spaces, then strip. -/
def cleanColNameL (l : List Char) : List Char :=
  trimWsL (cleanStep3 l)

/-- Step 3 of rename_columns: map the second space-part to a quarter
number by substring containment, in the if-elif order of the source. -/
def quarterNumL (q : List Char) : Option (List Char) :=
  if infixOfL ['1', 's', 't'] q then some ['0', '1']
  else if infixOfL ['2', 'n', 'd'] q then some ['0', '2']
  else if infixOfL ['3', 'r', 'd'] q || infixOfL ['3', 'n', 'd'] q then
    some ['0', '3']
  else if infixOfL ['4', 't', 'h'] q then some ['0', '4']
  else none

/-- The new name rename_columns computes for one column: the year part is
parts zero stripped, the quarter part is parts one stripped and lowered. -/
def renameColL (l : List Char) : List Char :=
  match splitChar ' ' (cleanColNameL l) with
  | p0 :: p1 :: _ =>
    match quarterNumL ((trimWsL p1).map Char.toLower) with
    | some qn => if isDigitStrL (trimWsL p0) then trimWsL p0 ++ qn else l
    | none => l
  | _ => l

/-- rename_columns on a single column name. -/
def rename_column (s : String) : String := ⟨renameColL s.data⟩

/-- rename_columns on the full column list. -/
def rename_columns (cols : List String) : List String := cols.map rename_column

/-- Whether rename_columns would rename the column (both the year test and
the quarter-token test succeed on the cleaned, split name). -/
def renameApplies (l : List Char) : Bool :=
  match splitChar ' ' (cleanColNameL l) with
  | p0 :: p1 :: _ =>
    isDigitStrL (trimWsL p0) && (quarterNumL ((trimWsL p1).map Char.toLower)).isSome
  | _ => false

/-- The characters of the word quarter. -/
def quarterWord : List Char := ['q', 'u', 'a', 'r', 't', 'e', 'r']

/-- The ordinal token of quarter number 1 to 4. -/
def ordToken : Nat → List Char
  | 1 => ['1', 's', 't']
  | 2 => ['2', 'n', 'd']
  | 3 => ['3', 'r', 'd']
  | 4 => ['4', 't', 'h']
  | _ => []

/-- The two-digit quarter token of quarter number 1 to 4. -/
def qqToken : Nat → List Char
  | 1 => ['0', '1']
  | 2 => ['0', '2']
  | 3 => ['0', '3']
  | 4 => ['0', '4']
  | _ => []

/-! ### search_for_energy_trend link scan (lines 164-183) -/

/-- Lines 171-174: scan the hyperlink targets in document order and keep
the first whose target contains the token xls or xlsx as a substring. -/
def findExcelLink (hrefs : List String) : Option String :=
  hrefs.find? (fun h => infixStr ".xls" h || infixStr ".xlsx" h)

/-- Lines 182-183: a link that does not start with http is prefixed with
the hard-coded host. -/
def resolveLink (link : String) : String :=
  if startsWithStr "http" link then link else "https://www.gov.uk" ++ link

/-! ### Sub_Category and Category derivation (lines 280-290) -/

/-- Spark concat_ws for two non-null string arguments. -/
def concatWsTwo (sep a b : String) : String := a ++ sep ++ b

/-- The Sub_Category column of lines 281-285, as a function of the row id
and the cleaned Category value. -/
def sub_Category (id : Nat) (category : String) : String :=
  if id = 1 ∨ id = 2 ∨ id = 3 then
    concatWsTwo "_" "Indigenous production" category
  else if id = 5 ∨ id = 6 then concatWsTwo "_" "Imports" category
  else if id = 8 ∨ id = 9 then concatWsTwo "_" "Exports" category
  else category

/-- Spark split(col, sep)[0]: the first field of the split. -/
def splitFirst (sep : Char) (s : String) : String :=
  ⟨(splitChar sep s.data).headD []⟩

/-- The Category update of lines 289-290. -/
def updated_Category (category subCat : String) : String :=
  if subCat ≠ category then splitFirst '_' subCat else category

/-! ### The unpivot and the written output (lines 306-313, 372-400) -/

/-- A row of the wide table; the quantities are looked up by (renamed)
column name.  Option Int models a possibly null numeric cell; the claims
under study depend only on row counts and carried labels, not on the
numeric domain. -/
structure WideRow where
  category : String
  subCategory : String
  cell : String → Option Int

/-- A row of the unpivoted long table. -/
structure LongRow where
  category : String
  subCategory : String
  quarter : String
  quantity : Option Int

/-- Lines 308-310: union the summed synthetic rows onto the table, then
drop the superseded Crude oil and NGLs rows. -/
def final_df_rows (sparkRows summedRows : List WideRow) : List WideRow :=
  (sparkRows ++ summedRows).filter (fun r =>
    r.subCategory ≠ "Indigenous production_Crude oil" &&
      r.subCategory ≠ "Indigenous production_NGLs")

/-- Line 374: the quarterly columns are those whose (renamed) name is all
digits. -/
def quarter_columns (cols : List String) : List String :=
  cols.filter (fun c => isDigitStr c)

/-- Line 382: the stack expression produces, for every input row, one
(Quarter, Quantity) output row per quarterly column. -/
def df_unpivot_rows (qcols : List String) (rows : List WideRow) : List LongRow :=
  rows.flatMap (fun r => qcols.map (fun q =>
    { category := r.category, subCategory := r.subCategory, quarter := q,
      quantity := r.cell q }))

/-- Line 264: spaces in column names become underscores. -/
def underscoreName (s : String) : String :=
  ⟨s.data.map (fun c => if c = ' ' then '_' else c)⟩

/-- Lines 260-289: the columns of spark_df at the time of the write.  The
id column is appended at load, spaces become underscores, Column1 is
renamed to Category when present, and Sub_Category is appended; the two
Category updates rewrite an existing column in place. -/
def spark_df_columns (input : List String) : List String :=
  ((input ++ ["id"]).map underscoreName).map
      (fun c => if c = "Column1" then "Category" else c) ++ ["Sub_Category"]

/-- Line 382: the columns selected into the unpivoted frame. -/
def df_unpivot_columns : List String :=
  ["Category", "Sub_Category", "Quarter", "Quantity"]

/-- Lines 386-387: finalDF appends FileName and ProcessedDate. -/
def finalDF_columns : List String :=
  df_unpivot_columns ++ ["FileName", "ProcessedDate"]

/-- Line 400: the frame actually written to the output path is spark_df,
the wide intermediate, not finalDF. -/
def written_df_columns (input : List String) : List String :=
  spark_df_columns input

/-! ### Helper lemmas -/

theorem retryGo_all_reqexc (f : Nat → Attempt) (b : Nat) :
    ∀ (r i d : Nat) (s : List Nat),
      (∀ j, j < r → isRequestException (f (i + j)) = true) →
      retryGo f b r i d s = (RunResult.exhausted, s ++ retryDelays r d b) := by
  intro r
  induction r with
  | zero => intro i d s _; simp [retryGo, retryDelays]
  | succ r ih =>
    intro i d s h
    have h0 : isRequestException (f i) = true := by
      have := h 0 (Nat.succ_pos r); simpa using this
    have hrest : ∀ j, j < r → isRequestException (f (i + 1 + j)) = true := by
      intro j hj
      have := h (j + 1) (by omega)
      have e : i + (j + 1) = i + 1 + j := by omega
      rwa [e] at this
    cases e0 : f i with
    | ok => rw [e0] at h0; simp [isRequestException] at h0
    | otherError => rw [e0] at h0; simp [isRequestException] at h0
    | httpError =>
      rw [show retryGo f b (r + 1) i d s =
          retryGo f b r (i + 1) (d * b) (s ++ [d]) by
        simp [retryGo, e0]]
      rw [ih (i + 1) (d * b) (s ++ [d]) hrest]
      simp [retryDelays]
    | connError =>
      rw [show retryGo f b (r + 1) i d s =
          retryGo f b r (i + 1) (d * b) (s ++ [d]) by
        simp [retryGo, e0]]
      rw [ih (i + 1) (d * b) (s ++ [d]) hrest]
      simp [retryDelays]

theorem df_unpivot_length (qcols : List String) (rows : List WideRow) :
    (df_unpivot_rows qcols rows).length = rows.length * qcols.length := by
  induction rows with
  | nil => simp [df_unpivot_rows]
  | cons r rs ih =>
    simp only [df_unpivot_rows, List.flatMap_cons, List.length_append,
      List.length_map, List.length_cons] at ih ⊢
    rw [ih]
    ring

theorem splitChar_ne_nil (sep : Char) (l : List Char) : splitChar sep l ≠ [] := by
  cases l with
  | nil => simp [splitChar]
  | cons c rest =>
    simp only [splitChar]
    split
    · simp
    · split <;> simp

theorem splitChar_headD (sep : Char) (l : List Char) :
    (splitChar sep l).headD [] = l.takeWhile (fun c => c ≠ sep) := by
  induction l with
  | nil => simp [splitChar]
  | cons c rest ih =>
    simp only [splitChar, List.takeWhile_cons]
    by_cases hc : c = sep
    · simp [hc]
    · simp only [if_neg hc, decide_eq_true_eq]
      cases e : splitChar sep rest with
      | nil => exact absurd e (splitChar_ne_nil sep rest)
      | cons g gs =>
        rw [e] at ih
        simp only [List.headD_cons] at ih
        simp [hc, ih]

theorem sfxOk_iff (cs : List Char) :
    sfxOk cs = true ↔ ∃ sfx rest, cs = sfx ++ qtrWord ++ rest ∧ sfx ∈ sfxList := by
  constructor
  · intro h
    rcases cs with _ | ⟨a, _ | ⟨b, r⟩⟩
    · simp [sfxOk] at h
    · simp [sfxOk] at h
    · simp only [sfxOk, Bool.and_eq_true] at h
      obtain ⟨hab, hpre⟩ := h
      rw [List.isPrefixOf_iff_prefix] at hpre
      obtain ⟨rest, hrest⟩ := hpre
      refine ⟨[a, b], rest, ?_, ?_⟩
      · simp [← hrest]
      · simp only [isSfx2, Bool.or_eq_true, Bool.and_eq_true,
          decide_eq_true_eq] at hab
        rcases hab with ((⟨rfl, rfl⟩ | ⟨rfl, rfl⟩) | ⟨rfl, rfl⟩) | ⟨rfl, rfl⟩ <;>
          simp [sfxList]
  · rintro ⟨sfx, rest, rfl, hsfx⟩
    simp only [sfxList, List.mem_cons, List.not_mem_nil, or_false] at hsfx
    rcases hsfx with rfl | rfl | rfl | rfl <;>
      simp [sfxOk, isSfx2, List.isPrefixOf_iff_prefix, List.prefix_append]

theorem quarterToTupleCore_iff (cs : List Char) (y q : Nat) :
    quarterToTupleCore cs = some (y, q) ↔ ValidQuarterPrefix cs y q := by
  constructor
  · intro h
    rcases cs with _ | ⟨d1, _ | ⟨d2, _ | ⟨d3, _ | ⟨d4, _ | ⟨sp, _ | ⟨q1,
      _ | ⟨q2, rest2⟩⟩⟩⟩⟩⟩⟩
    · simp [quarterToTupleCore] at h
    · simp [quarterToTupleCore] at h
    · simp [quarterToTupleCore] at h
    · simp [quarterToTupleCore] at h
    · simp [quarterToTupleCore] at h
    · simp [quarterToTupleCore] at h
    · simp [quarterToTupleCore] at h
    · simp only [quarterToTupleCore] at h
      split_ifs at h with hcond hq2 hs hs
      · obtain ⟨⟨⟨⟨⟨h1, h2⟩, h3⟩, h4⟩, hsp⟩, hq1⟩ := by
          simpa only [Bool.and_eq_true, decide_eq_true_eq] using hcond
        subst hsp
        simp only [Option.some.injEq, Prod.mk.injEq] at h
        obtain ⟨rfl, rfl⟩ := h
        obtain ⟨sfx, rest3, rfl, hsfx⟩ := (sfxOk_iff rest2).mp hs
        exact ⟨d1, d2, d3, d4, [q1, q2], sfx, rest3, by simp,
          ⟨h1, h2, h3, h4⟩, Or.inr ⟨q1, q2, rfl, hq1, hq2, rfl⟩, hsfx, rfl⟩
      · obtain ⟨⟨⟨⟨⟨h1, h2⟩, h3⟩, h4⟩, hsp⟩, hq1⟩ := by
          simpa only [Bool.and_eq_true, decide_eq_true_eq] using hcond
        subst hsp
        simp only [Option.some.injEq, Prod.mk.injEq] at h
        obtain ⟨rfl, rfl⟩ := h
        obtain ⟨sfx, rest3, heq, hsfx⟩ := (sfxOk_iff (q2 :: rest2)).mp hs
        exact ⟨d1, d2, d3, d4, [q1], sfx, rest3, by simp [heq],
          ⟨h1, h2, h3, h4⟩, Or.inl ⟨q1, rfl, hq1, rfl⟩, hsfx, rfl⟩
  · rintro ⟨d1, d2, d3, d4, qd, sfx, rest, rfl, ⟨h1, h2, h3, h4⟩, hqd, hsfx, rfl⟩
    simp only [sfxList, List.mem_cons, List.not_mem_nil, or_false] at hsfx
    rcases hqd with ⟨e1, rfl, he1, rfl⟩ | ⟨e1, e2, rfl, he1, he2, rfl⟩
    · rcases hsfx with rfl | rfl | rfl | rfl <;>
        simp [quarterToTupleCore, sfxOk, isSfx2, qtrWord, h1, h2, h3, h4, he1,
          List.isPrefixOf_iff_prefix, List.prefix_append,
          show ('s').isDigit = false from by decide,
          show ('n').isDigit = false from by decide,
          show ('r').isDigit = false from by decide,
          show ('t').isDigit = false from by decide]
    · rcases hsfx with rfl | rfl | rfl | rfl <;>
        simp [quarterToTupleCore, sfxOk, isSfx2, qtrWord, h1, h2, h3, h4, he1,
          he2, List.isPrefixOf_iff_prefix, List.prefix_append]

theorem dropWhile_append_head_neg {p : Char → Bool} (a : List Char) {h : Char}
    (tl : List Char) (hh : p h = false) :
    (a ++ h :: tl).dropWhile p = a.dropWhile p ++ h :: tl := by
  induction a with
  | nil => simp [List.dropWhile_cons, hh]
  | cons x xs ih =>
    simp only [List.cons_append, List.dropWhile_cons]
    by_cases hx : p x = true
    · simp [hx, ih]
    · simp [hx]

/-- A digit character is never an opening square bracket. -/
theorem digit_ne_lbracket {c : Char} (hd : c.isDigit = true) : c ≠ '[' := by
  intro hc
  subst hc
  exact absurd hd (by decide)

/-- If a string parses as a quarter label, then after bracket stripping it
still parses to the same value: the removed region starts at the earliest
opening bracket (extended left over whitespace), which lies strictly after
the matched prefix, because the prefix contains no bracket and ends in a
letter. -/
theorem stripBracketsL_parse (cs : List Char) (y q : Nat)
    (h : quarterToTupleCore cs = some (y, q)) :
    quarterToTupleCore (stripBracketsL cs) = some (y, q) := by
  obtain ⟨d1, d2, d3, d4, qd, sfx, rest, hcs, hdig, hqd, hsfx, hy⟩ :=
    (quarterToTupleCore_iff cs y q).mp h
  have hcs' : cs = (d1 :: d2 :: d3 :: d4 :: ' ' :: (qd ++ sfx ++ qtrWord)) ++
      rest := by
    simp [hcs, List.append_assoc]
  set P : List Char := d1 :: d2 :: d3 :: d4 :: ' ' :: (qd ++ sfx ++ qtrWord)
    with hPdef
  have hPnb : ∀ c ∈ P, c ≠ '[' := by
    intro c hc
    rw [hPdef] at hc
    simp only [List.mem_cons, List.mem_append] at hc
    rcases hc with rfl | rfl | rfl | rfl | rfl | (hin | hin) | hin
    · exact digit_ne_lbracket hdig.1
    · exact digit_ne_lbracket hdig.2.1
    · exact digit_ne_lbracket hdig.2.2.1
    · exact digit_ne_lbracket hdig.2.2.2
    · decide
    · rcases hqd with ⟨e1, rfl, he1, _⟩ | ⟨e1, e2, rfl, he1, he2, _⟩
      · simp only [List.mem_cons, List.not_mem_nil, or_false] at hin
        subst hin
        exact digit_ne_lbracket he1
      · simp only [List.mem_cons, List.not_mem_nil, or_false] at hin
        rcases hin with rfl | rfl
        · exact digit_ne_lbracket he1
        · exact digit_ne_lbracket he2
    · simp only [sfxList, List.mem_cons, List.not_mem_nil, or_false] at hsfx
      rcases hsfx with rfl | rfl | rfl | rfl <;>
        simp only [List.mem_cons, List.not_mem_nil, or_false] at hin <;>
          rcases hin with rfl | rfl <;> decide
    · rcases show c = ' ' ∨ c = 'q' ∨ c = 'u' ∨ c = 'a' ∨ c = 'r' ∨ c = 't' ∨
          c = 'e' ∨ c = 'r' by simpa [qtrWord] using hin with
        rfl | rfl | rfl | rfl | rfl | rfl | rfl | rfl <;> decide
  have hPrev : P.reverse = 'r' :: (['e', 't', 'r', 'a', 'u', 'q', ' '] ++
      (qd ++ sfx).reverse ++ [' ', d4, d3, d2, d1]) := by
    rw [hPdef]
    simp [qtrWord, List.reverse_append, List.append_assoc]
  have hbefore : cs.takeWhile (fun c => c ≠ '[') =
      P ++ rest.takeWhile (fun c => c ≠ '[') := by
    rw [hcs']
    exact List.takeWhile_append_of_pos (by
      intro c hc
      simpa using hPnb c hc)
  unfold stripBracketsL
  split_ifs with h1 h2
  · exact h
  · rw [hbefore, hcs']
    rw [List.reverse_append, hPrev,
      dropWhile_append_head_neg _ _ (show isWs 'r' = false by decide)]
    rw [List.reverse_append]
    have hrtl : ('r' :: (['e', 't', 'r', 'a', 'u', 'q', ' '] ++
        (qd ++ sfx).reverse ++ [' ', d4, d3, d2, d1])).reverse = P := by
      rw [← hPrev, List.reverse_reverse]
    rw [hrtl]
    refine (quarterToTupleCore_iff _ y q).mpr
      ⟨d1, d2, d3, d4, qd, sfx,
        (List.dropWhile isWs
            ((List.takeWhile (fun c => decide (c ≠ '[')) rest).reverse)).reverse
          ++ (List.takeWhile (fun c => decide (c ≠ ']')) (P ++ rest).reverse).reverse,
        ?_, hdig, hqd, hsfx, hy⟩
    rw [hPdef]
    simp [List.append_assoc]
  · exact h

/-- String-level corollary: bracket stripping preserves a successful
quarter parse. -/
theorem stripBrackets_parse (s : String) (y q : Nat)
    (h : quarterToTupleQ s = some (y, q)) :
    quarterToTupleQ (stripBrackets s) = some (y, q) :=
  stripBracketsL_parse s.data y q h

/-! ### Claim C1 -/

/-- C1: the claim says the file written to the output path is the
unpivoted finalDF with header columns Category, Sub_Category, Quarter,
Quantity, FileName, ProcessedDate.  Line 400 instead writes spark_df, the
wide intermediate: on a representative input sheet its columns are the
renamed wide columns plus id and Sub_Category, which differ from the six
columns finalDF carries.  The code computes finalDF (lines 382-390) and
never writes it, so the written output is not the claimed long table. -/
theorem claim_C1_written_output_is_wide_df :
    written_df_columns ["Column1", "2023 1st quarter", "2024 2nd quarter"] =
      ["Category", "2023_1st_quarter", "2024_2nd_quarter", "id", "Sub_Category"] ∧
    written_df_columns ["Column1", "2023 1st quarter", "2024 2nd quarter"] ≠
      finalDF_columns ∧
    finalDF_columns =
      ["Category", "Sub_Category", "Quarter", "Quantity", "FileName",
        "ProcessedDate"] := by
  refine ⟨by decide, by decide, by decide⟩

/-! ### Claim C3 -/

/-- C3 counterexample: the claim says an HTTP 4xx or 5xx status received
after a successful connection is never retried and surfaces immediately.
In the requests library the HTTPError raised by raise_for_status is a
subclass of RequestException, which is exactly the class the decorator
retries on, so a persistent HTTP status error is retried three times with
sleeps 5, 10, 20 before the terminal raise, instead of surfacing at once. -/
theorem claim_C3_cex_http_error_is_retried :
    retryDownload (fun _ => Attempt.httpError) =
      (RunResult.exhausted, [5, 10, 20]) ∧
    isRequestException Attempt.httpError = true := by
  refine ⟨by decide, by decide⟩

/-- C3 amended: the retry policy fires on every RequestException,
including the HTTPError that raise_for_status throws for a 4xx or 5xx
response, not only on network-layer failures; any function whose attempts
persistently raise a RequestException is attempted 3 times with delay
sequence 5s, 10s, 20s and then fails terminally, while an exception that
is not a RequestException propagates immediately without any retry. -/
theorem claim_C3_retry_policy_amended :
    (∀ f : Nat → Attempt,
      (∀ i, i < 3 → isRequestException (f i) = true) →
      retryDownload f = (RunResult.exhausted, [5, 10, 20])) ∧
    (∀ f : Nat → Attempt, f 0 = Attempt.otherError →
      retryDownload f = (RunResult.raised 0, [])) := by
  constructor
  · intro f h
    have := retryGo_all_reqexc f 2 3 0 5 [] (by intro j hj; simpa using h j hj)
    simpa [retryDelays] using this
  · intro f h
    simp [retryDownload, retryGo, h]

/-- C3 witness: the amended theorem applied to a persistently failing
connection and to an immediately propagating non-request error. -/
theorem claim_C3_retry_policy_amended_witness :
    retryDownload (fun _ => Attempt.connError) =
      (RunResult.exhausted, [5, 10, 20]) ∧
    retryDownload (fun _ => Attempt.otherError) = (RunResult.raised 0, []) :=
  ⟨claim_C3_retry_policy_amended.1 _ (fun _ _ => rfl),
    claim_C3_retry_policy_amended.2 _ rfl⟩

/-! ### Claim C8 -/

/-- C8: Sub_Category is derived purely from the row id — ids 1, 2, 3 get
the Indigenous production prefix, 5 and 6 the Imports prefix, 8 and 9 the
Exports prefix, all others keep the Category value — and exactly where
Sub_Category differs from Category, Category is overwritten with the text
of Sub_Category before its first underscore separator. -/
theorem claim_C8_sub_category_by_row_id :
    ∀ (id : Nat) (cat : String),
      (sub_Category id cat =
        if id = 1 ∨ id = 2 ∨ id = 3 then "Indigenous production_" ++ cat
        else if id = 5 ∨ id = 6 then "Imports_" ++ cat
        else if id = 8 ∨ id = 9 then "Exports_" ++ cat
        else cat) ∧
      updated_Category cat (sub_Category id cat) =
        (if sub_Category id cat ≠ cat then
          ⟨(sub_Category id cat).data.takeWhile (fun c => c ≠ '_')⟩
        else cat) := by
  intro id cat
  constructor
  · unfold sub_Category concatWsTwo
    split_ifs <;> rfl
  · unfold updated_Category splitFirst
    split_ifs
    · exact congrArg String.mk (splitChar_headD '_' (sub_Category id cat).data)
    · rfl

/-! ### Claim C9 -/

/-- C9: the unpivot step produces exactly one long row per (remaining wide
row, quarterly column) pair, so its output row count is the row count of
the table after the synthetic-row aggregation and superseded-row filtering
multiplied by the number of all-digit (renamed) quarter columns. -/
theorem claim_C9_unpivot_row_count :
    ∀ (cols : List String) (sparkRows summedRows : List WideRow),
      (df_unpivot_rows (quarter_columns cols)
          (final_df_rows sparkRows summedRows)).length =
        (final_df_rows sparkRows summedRows).length *
          (quarter_columns cols).length := by
  intro cols sparkRows summedRows
  exact df_unpivot_length _ _

/-! ### Counterexamples for C2, C4, C6, C7 -/

/-- C2 counterexample: on the caught-error branch the scratch copy is not
deleted.  With a sheet that has no quarter-shaped column, the max call
raises, the except clause returns (False, last_known), and os.remove never
runs — the removal flag of the model is false. -/
theorem claim_C2_cex_error_path_keeps_scratch :
    check_excel true ["Category"] "1984 1st quarter" =
      ((false, "1984 1st quarter"), false) := by
  decide

/-- C4 counterexample: the regular expression accepts quarter numbers
outside one to four, so the string 2024 5th quarter parses successfully to
(2024, 5) instead of raising ValueError as the claim requires. -/
theorem claim_C4_cex_quarter_five_accepted :
    quarterToTupleQ "2024 5th quarter" = some (2024, 5) ∧
    ¬(5 = 1 ∨ 5 = 2 ∨ 5 = 3 ∨ 5 = 4) := by
  refine ⟨by decide, by decide⟩

/-- C6 counterexample: the scanner tests substring containment, not an
ends-with test, so a link whose target merely contains the token — here a
xlsb workbook link — is selected even though it does not end in xls or
xlsx as the claim requires. -/
theorem claim_C6_cex_substring_not_suffix :
    findExcelLink ["report.xlsb"] = some "report.xlsb" ∧
    endsWithStr ".xls" "report.xlsb" = false ∧
    endsWithStr ".xlsx" "report.xlsb" = false := by
  refine ⟨by decide, by decide, by decide⟩

/-- C7 counterexample: rename_columns never checks for the word quarter,
so the column name 2024 1st — which does not have the claimed
year-ordinal-quarter shape — is renamed to 202401 instead of being left
unchanged. -/
theorem claim_C7_cex_renames_without_quarter_word :
    rename_column "2024 1st" = "202401" ∧
    "2024 1st" ≠ "202401" ∧
    infixStr "quarter" "2024 1st" = false := by
  refine ⟨by decide, by decide, by decide⟩

/-! ### Tuple order and Python max facts -/

theorem qGtP_trans {a b c : Nat × Nat} (h1 : qGtP a b) (h2 : qGtP b c) :
    qGtP a c := by
  obtain ⟨a1, a2⟩ := a
  obtain ⟨b1, b2⟩ := b
  obtain ⟨c1, c2⟩ := c
  simp only [qGtP] at h1 h2 ⊢
  omega

theorem qGtP_not_trans {a b c : Nat × Nat} (h1 : ¬qGtP a b) (h2 : ¬qGtP b c) :
    ¬qGtP a c := by
  obtain ⟨a1, a2⟩ := a
  obtain ⟨b1, b2⟩ := b
  obtain ⟨c1, c2⟩ := c
  simp only [qGtP] at h1 h2 ⊢
  omega

theorem qGtP_antisymm {a b : Nat × Nat} (h1 : ¬qGtP a b) (h2 : ¬qGtP b a) :
    a = b := by
  obtain ⟨a1, a2⟩ := a
  obtain ⟨b1, b2⟩ := b
  simp only [qGtP] at h1 h2
  have : a1 = b1 ∧ a2 = b2 := by omega
  simp [this.1, this.2]

theorem pickMaxGo_mem (acc : String × (Nat × Nat))
    (l : List (String × (Nat × Nat))) : pickMaxGo acc l ∈ acc :: l := by
  induction l generalizing acc with
  | nil => simp [pickMaxGo]
  | cons k rest ih =>
    have hres : pickMaxGo acc (k :: rest) =
        pickMaxGo (if qGtB k.2 acc.2 then k else acc) rest := rfl
    rw [hres]
    by_cases hb : qGtB k.2 acc.2 = true
    · rw [if_pos hb]
      rcases List.mem_cons.mp (ih k) with h | h
      · rw [h]
        exact List.mem_cons_of_mem _ (List.mem_cons_self _ _)
      · exact List.mem_cons_of_mem _ (List.mem_cons_of_mem _ h)
    · rw [if_neg hb]
      rcases List.mem_cons.mp (ih acc) with h | h
      · rw [h]
        exact List.mem_cons_self _ _
      · exact List.mem_cons_of_mem _ (List.mem_cons_of_mem _ h)

theorem qGtP_irrefl (a : Nat × Nat) : ¬qGtP a a := by
  simp only [qGtP]
  omega

theorem qGtP_asymm {a b : Nat × Nat} (h : qGtP a b) : ¬qGtP b a := by
  obtain ⟨a1, a2⟩ := a
  obtain ⟨b1, b2⟩ := b
  simp only [qGtP] at h ⊢
  omega

theorem pickMaxGo_max (acc : String × (Nat × Nat))
    (l : List (String × (Nat × Nat))) :
    ∀ x ∈ acc :: l, ¬qGtP x.2 (pickMaxGo acc l).2 := by
  induction l generalizing acc with
  | nil =>
    intro x hx
    simp only [List.mem_cons, List.not_mem_nil, or_false] at hx
    rw [hx]
    exact qGtP_irrefl _
  | cons k rest ih =>
    intro x hx
    have hres : pickMaxGo acc (k :: rest) =
        pickMaxGo (if qGtB k.2 acc.2 then k else acc) rest := rfl
    set acc2 := if qGtB k.2 acc.2 then k else acc with hacc2
    have hAcc : ¬qGtP acc.2 acc2.2 ∧ ¬qGtP k.2 acc2.2 := by
      rw [hacc2]
      by_cases hb : qGtB k.2 acc.2 = true
      · rw [if_pos hb]
        exact ⟨qGtP_asymm (of_decide_eq_true hb), qGtP_irrefl _⟩
      · rw [if_neg hb]
        exact ⟨qGtP_irrefl _, fun hc => hb (decide_eq_true hc)⟩
    have hup := ih acc2
    have hres2 : ¬qGtP acc2.2 (pickMaxGo acc2 rest).2 :=
      hup acc2 (List.mem_cons_self _ _)
    rw [hres]
    rcases List.mem_cons.mp hx with h | h
    · exact qGtP_not_trans (by rw [h]; exact hAcc.1) hres2
    · rcases List.mem_cons.mp h with h2 | h2
      · exact qGtP_not_trans (by rw [h2]; exact hAcc.2) hres2
      · exact hup x (List.mem_cons_of_mem _ h2)

theorem keysOf_spec (xs : List String) (ks : List (String × (Nat × Nat)))
    (h : keysOf xs = some ks) :
    ks.map Prod.snd = xs.filterMap gateKey ∧
      ∀ k ∈ ks, k.1 ∈ xs ∧ gateKey k.1 = some k.2 := by
  induction xs generalizing ks with
  | nil =>
    simp only [keysOf, Option.some.injEq] at h
    subst h
    simp
  | cons x xs ih =>
    cases e1 : gateKey x with
    | none => simp [keysOf, e1] at h
    | some t =>
      cases e2 : keysOf xs with
      | none => simp [keysOf, e1, e2] at h
      | some ks2 =>
        simp only [keysOf, e1, e2, Option.some.injEq] at h
        subst h
        obtain ⟨hmap, hmem⟩ := ih ks2 e2
        refine ⟨by simp [List.filterMap_cons, e1, hmap], ?_⟩
        intro k hk
        rcases List.mem_cons.mp hk with rfl | hk2
        · exact ⟨List.mem_cons_self _ _, e1⟩
        · obtain ⟨ha, hb⟩ := hmem k hk2
          exact ⟨List.mem_cons_of_mem _ ha, hb⟩

/-- Dissection of a successful run of the try block core. -/
theorem gateTryAux_ok (qcols : List String) (latest nlatest : String)
    (r : Bool × String) (h : gateTryAux qcols latest nlatest = Except.ok r) :
    ∃ k0 krest tIn tLast,
      keysOf qcols = some (k0 :: krest) ∧
      quarterToTupleQ (pickMaxGo k0 krest).1 = some tIn ∧
      quarterToTupleQ nlatest = some tLast ∧
      ((qGtP tIn tLast ∧ r = (true, (pickMaxGo k0 krest).1)) ∨
        (¬qGtP tIn tLast ∧ r = (false, latest))) := by
  cases qcols with
  | nil => simp [gateTryAux] at h
  | cons q0 qrest =>
    cases e1 : keysOf (q0 :: qrest) with
    | none => simp [gateTryAux, e1] at h
    | some ks =>
      cases ks with
      | nil => simp [gateTryAux, e1] at h
      | cons k0 krest =>
        cases e2 : quarterToTupleQ (pickMaxGo k0 krest).1 with
        | none => simp [gateTryAux, e1, e2] at h
        | some tIn =>
          cases e3 : quarterToTupleQ nlatest with
          | none => simp [gateTryAux, e1, e2, e3] at h
          | some tLast =>
            refine ⟨k0, krest, tIn, tLast, rfl, e2, rfl, ?_⟩
            simp only [gateTryAux, e1, e2, e3] at h
            by_cases hb : qGtB tIn tLast = true
            · rw [if_pos hb] at h
              exact Or.inl ⟨of_decide_eq_true hb,
                (Except.ok.inj h).symm⟩
            · rw [if_neg hb] at h
              exact Or.inr ⟨fun hc => hb (decide_eq_true hc),
                (Except.ok.inj h).symm⟩

/-! ### Claim C4 (amended) -/

/-- C4 amended: quarter_to_tuple succeeds exactly on the strings that
begin with four digits, a space, a one- or two-digit quarter number, one of
the ordinal suffixes st, nd, rd, th, and the word quarter — arbitrary
trailing text is accepted, the quarter number is not restricted to one
through four, and the suffix need not agree with the number — returning
the (year, number) pair; every other string raises ValueError. -/
theorem claim_C4_parse_succeeds_iff_prefix_matches :
    ∀ (s : String) (y q : Nat),
      quarterToTupleQ s = some (y, q) ↔ ValidQuarterPrefix s.data y q :=
  fun s y q => quarterToTupleCore_iff s.data y q

/-- C4 witness: the amended characterisation applied to a quarter number
far outside one to four. -/
theorem claim_C4_parse_succeeds_iff_prefix_matches_witness :
    quarterToTupleQ "2024 13th quarter" = some (2024, 13) :=
  (claim_C4_parse_succeeds_iff_prefix_matches "2024 13th quarter" 2024 13).mpr
    ⟨'2', '0', '2', '4', ['1', '3'], ['t', 'h'], [], by decide, by decide,
      Or.inr ⟨'1', '3', rfl, by decide, by decide, by decide⟩, by decide,
      by decide⟩

/-! ### Claim C5 -/

/-- C5: the gate reports newer only when the maximum parsed quarter label
of the file strictly exceeds the parsed last-known value under (year,
quarter) tuple comparison; whenever the newest label does not strictly
exceed it, and on any caught parse or download failure, the call returns
(False, last_known) — it never spuriously signals newer. -/
theorem claim_C5_gate_never_spuriously_newer :
    ∀ (cols : List String) (latest : String),
      ((check_excel true cols latest).1.1 = true →
        ∃ tIn tLast, quarterToTupleQ (pyStrip latest) = some tLast ∧
          tIn ∈ parsedQuarters cols ∧
          (∀ t ∈ parsedQuarters cols, ¬qGtP t tIn) ∧ qGtP tIn tLast) ∧
      ((check_excel true cols latest).1.1 = false →
        (check_excel true cols latest).1 = (false, latest)) ∧
      ((check_excel false cols latest).1 = (false, latest)) ∧
      (∀ tIn tLast, quarterToTupleQ (pyStrip latest) = some tLast →
        tIn ∈ parsedQuarters cols →
        (∀ t ∈ parsedQuarters cols, ¬qGtP t tIn) →
        ¬qGtP tIn tLast →
        (check_excel true cols latest).1 = (false, latest)) := by
  intro cols latest
  have master : ∀ r, gateTry cols latest = Except.ok r →
      ∃ tIn tLast, quarterToTupleQ (pyStrip latest) = some tLast ∧
        tIn ∈ parsedQuarters cols ∧
        (∀ t ∈ parsedQuarters cols, ¬qGtP t tIn) ∧
        ((qGtP tIn tLast ∧ r.1 = true) ∨
          (¬qGtP tIn tLast ∧ r = (false, latest))) := by
    intro r hr
    unfold gateTry at hr
    obtain ⟨k0, krest, tInRaw, tLast, hkeys, hparse, hlast, hdisj⟩ :=
      gateTryAux_ok _ _ _ r hr
    obtain ⟨hmap, hmem⟩ := keysOf_spec _ _ hkeys
    obtain ⟨hmIn, hmKey⟩ := hmem _ (pickMaxGo_mem k0 krest)
    have hstrip : quarterToTupleQ (stripBrackets (pickMaxGo k0 krest).1) =
        some tInRaw := stripBrackets_parse _ _ _ hparse
    have hm2 : (pickMaxGo k0 krest).2 = tInRaw :=
      Option.some.inj (hmKey.symm.trans hstrip)
    refine ⟨tInRaw, tLast, hlast, ?_, ?_, ?_⟩
    · rw [← hm2]
      unfold parsedQuarters
      rw [← hmap]
      exact List.mem_map_of_mem Prod.snd (pickMaxGo_mem k0 krest)
    · intro t ht
      unfold parsedQuarters at ht
      rw [← hmap] at ht
      obtain ⟨k, hk, hkt⟩ := List.mem_map.mp ht
      rw [← hm2, ← hkt]
      exact pickMaxGo_max k0 krest k hk
    · rcases hdisj with ⟨hgt, hrEq⟩ | ⟨hngt, hrEq⟩
      · exact Or.inl ⟨hgt, by rw [hrEq]⟩
      · exact Or.inr ⟨hngt, hrEq⟩
  refine ⟨?_, ?_, ?_, ?_⟩
  · intro htrue
    cases hg : gateTry cols latest with
    | error e => simp [check_excel, hg] at htrue
    | ok r =>
      obtain ⟨tIn, tLast, hlast, hmem2, hmax2, hdisj⟩ := master r hg
      rcases hdisj with ⟨hgt, _⟩ | ⟨_, hreq⟩
      · exact ⟨tIn, tLast, hlast, hmem2, hmax2, hgt⟩
      · simp [check_excel, hg, hreq] at htrue
  · intro hfalse
    cases hg : gateTry cols latest with
    | error e => simp [check_excel, hg]
    | ok r =>
      obtain ⟨tIn, tLast, hlast, hmem2, hmax2, hdisj⟩ := master r hg
      rcases hdisj with ⟨_, hr1⟩ | ⟨_, hreq⟩
      · simp [check_excel, hg, hr1] at hfalse
      · simp [check_excel, hg, hreq]
  · rfl
  · intro tIn tLast hlast hmem hmax hngt
    cases hg : gateTry cols latest with
    | error e => simp [check_excel, hg]
    | ok r =>
      obtain ⟨tIn2, tLast2, hlast2, hmem2, hmax2, hdisj⟩ := master r hg
      have hL : tLast2 = tLast := Option.some.inj (hlast2.symm.trans hlast)
      have hI : tIn = tIn2 := qGtP_antisymm (hmax2 tIn hmem) (hmax tIn2 hmem2)
      rcases hdisj with ⟨hgt, _⟩ | ⟨_, hreq⟩
      · exfalso
        apply hngt
        rw [hI, ← hL]
        exact hgt
      · simp [check_excel, hg, hreq]

/-- C5 witness: the fail-closed direction applied where the newest label
equals last_known, and the newer-sound direction applied where the file
holds a strictly newer quarter. -/
theorem claim_C5_gate_never_spuriously_newer_witness :
    (check_excel true ["2024 1st quarter"] "2024 1st quarter").1 =
      (false, "2024 1st quarter") ∧
    (∃ tIn tLast,
      quarterToTupleQ (pyStrip "2023 1st quarter") = some tLast ∧
      tIn ∈ parsedQuarters ["2023 1st quarter", "2024 2nd quarter"] ∧
      (∀ t ∈ parsedQuarters ["2023 1st quarter", "2024 2nd quarter"],
        ¬qGtP t tIn) ∧
      qGtP tIn tLast) :=
  ⟨(claim_C5_gate_never_spuriously_newer ["2024 1st quarter"]
        "2024 1st quarter").2.2.2 (2024, 1) (2024, 1) (by decide) (by decide)
      (by decide) (by decide),
    (claim_C5_gate_never_spuriously_newer
        ["2023 1st quarter", "2024 2nd quarter"] "2023 1st quarter").1
      (by decide)⟩

/-! ### Claim C10 -/

/-- C10: when no column header matches the quarter pattern, the max call
inside the try block raises on the empty sequence; the exception is caught
and the gate returns (False, last_known) instead of raising to its
caller. -/
theorem claim_C10_empty_quarter_columns_fail_closed :
    ∀ (cols : List String) (latest : String),
      (cols.map normCol).filter quarterColMatch = [] →
      gateTry cols latest = Except.error GateErr.emptyMax ∧
      (check_excel true cols latest).1 = (false, latest) := by
  intro cols latest h
  have hg : gateTry cols latest = Except.error GateErr.emptyMax := by
    unfold gateTry
    rw [h]
    rfl
  exact ⟨hg, by simp [check_excel, hg]⟩

/-- C10 witness: a sheet whose headers carry no quarter label at all. -/
theorem claim_C10_empty_quarter_columns_fail_closed_witness :
    gateTry ["Category", "Total"] "1984 1st quarter" =
      Except.error GateErr.emptyMax ∧
    (check_excel true ["Category", "Total"] "1984 1st quarter").1 =
      (false, "1984 1st quarter") :=
  claim_C10_empty_quarter_columns_fail_closed ["Category", "Total"]
    "1984 1st quarter" (by decide)

/-! ### Claim C2 (amended) -/

/-- C2 amended: the scratch copy is deleted before returning on the
newer-quarter branch and on the no-newer-quarter branch — that is, on
every run of the try block that returns normally — but on the caught-error
branch, and when the download itself failed, os.remove never runs and the
scratch copy (when it was created) is left behind. -/
theorem claim_C2_scratch_removal_amended :
    ∀ (cols : List String) (latest : String),
      (∀ r, gateTry cols latest = Except.ok r →
        (check_excel true cols latest).2 = true) ∧
      (∀ e, gateTry cols latest = Except.error e →
        (check_excel true cols latest).2 = false) ∧
      (check_excel false cols latest).2 = false := by
  intro cols latest
  exact ⟨fun r hr => by simp [check_excel, hr],
    fun e he => by simp [check_excel, he], rfl⟩

/-- C2 witness: a run whose try block returns normally removes the scratch
copy; a run that raises inside the try block does not. -/
theorem claim_C2_scratch_removal_amended_witness :
    (check_excel true ["2024 1st quarter"] "2023 1st quarter").2 = true ∧
    (check_excel true ["Category"] "2023 1st quarter").2 = false :=
  ⟨(claim_C2_scratch_removal_amended ["2024 1st quarter"]
        "2023 1st quarter").1 (true, "2024 1st quarter") rfl,
    (claim_C2_scratch_removal_amended ["Category"] "2023 1st quarter").2.1
      GateErr.emptyMax rfl⟩

/-! ### Claim C6 (amended) -/

theorem isPrefixOf_of_append_isPrefixOf {a b l : List Char}
    (h : (a ++ b).isPrefixOf l = true) : a.isPrefixOf l = true := by
  rw [List.isPrefixOf_iff_prefix] at h ⊢
  exact (List.prefix_append a b).trans h

theorem infixOfL_of_append (a b : List Char) (l : List Char)
    (h : infixOfL (a ++ b) l = true) : infixOfL a l = true := by
  induction l with
  | nil =>
    simp only [infixOfL, List.isEmpty_iff, List.append_eq_nil] at h ⊢
    exact h.1
  | cons c rest ih =>
    simp only [infixOfL, Bool.or_eq_true] at h ⊢
    rcases h with h | h
    · exact Or.inl (isPrefixOf_of_append_isPrefixOf h)
    · exact Or.inr (ih h)

theorem find?_congruence {p1 p2 : String → Bool} (l : List String)
    (h : ∀ x, p1 x = p2 x) : l.find? p1 = l.find? p2 := by
  induction l with
  | nil => rfl
  | cons x xs ih =>
    rw [List.find?_cons, List.find?_cons, h x]
    cases p2 x
    · exact ih
    · rfl

/-- Any target containing the xlsx token also contains the xls token, so
the disjunction in the source is equivalent to the xls test alone. -/
theorem xls_or_xlsx (x : String) :
    (infixStr ".xls" x || infixStr ".xlsx" x) = infixStr ".xls" x := by
  cases e : infixStr ".xls" x
  · cases e2 : infixStr ".xlsx" x
    · simp
    · exfalso
      have h1 : infixOfL (".xls".data ++ ['x']) x.data = true := by
        have hd : (".xlsx" : String).data = ".xls".data ++ ['x'] := by decide
        unfold infixStr at e2
        rw [← hd]
        exact e2
      have h2 := infixOfL_of_append (".xls".data) ['x'] x.data h1
      unfold infixStr at e
      rw [e] at h2
      exact Bool.false_ne_true h2
  · simp

/-- C6 amended: after a phrase match the scanner selects the first link in
document order whose target contains the token .xls anywhere as a
substring (a test the token .xlsx also passes, so the second disjunct of
the source is redundant), and a link that does not start with http is
resolved by prefixing the hard-coded host, while one that does is kept
unchanged. -/
theorem claim_C6_link_scan_amended :
    ∀ (hrefs : List String),
      findExcelLink hrefs = hrefs.find? (fun h => infixStr ".xls" h) ∧
      (∀ l : String, startsWithStr "http" l = false →
        resolveLink l = "https://www.gov.uk" ++ l) ∧
      (∀ l : String, startsWithStr "http" l = true → resolveLink l = l) := by
  intro hrefs
  refine ⟨?_, ?_, ?_⟩
  · unfold findExcelLink
    exact find?_congruence hrefs xls_or_xlsx
  · intro l hl
    simp [resolveLink, hl]
  · intro l hl
    simp [resolveLink, hl]

/-- C6 witness: the amended scan and resolution at concrete links. -/
theorem claim_C6_link_scan_amended_witness :
    findExcelLink ["page.html", "/docs/data.xlsx", "other.xls"] =
      List.find? (fun h => infixStr ".xls" h)
        ["page.html", "/docs/data.xlsx", "other.xls"] ∧
    resolveLink "/docs/data.xlsx" = "https://www.gov.uk/docs/data.xlsx" ∧
    resolveLink "https://x.xls" = "https://x.xls" := by
  refine ⟨(claim_C6_link_scan_amended
    ["page.html", "/docs/data.xlsx", "other.xls"]).1, ?_, ?_⟩
  · have h := (claim_C6_link_scan_amended []).2.1 "/docs/data.xlsx" (by decide)
    rw [h]
    decide
  · exact (claim_C6_link_scan_amended []).2.2 "https://x.xls" (by decide)

/-! ### Claim C7 (amended) -/

theorem replaceGo_no_head (p : Char) (ps rep : List Char) (fuel : Nat)
    (l : List Char) (h : p ∉ l) : replaceGo (p :: ps) rep fuel l = l := by
  induction fuel generalizing l with
  | zero => rfl
  | succ f ih =>
    cases l with
    | nil => rfl
    | cons c rest =>
      have hc : ¬(p = c) := by
        intro hr
        exact h (by rw [hr]; exact List.mem_cons_self _ _)
      have hpre : ¬((p :: ps).isPrefixOf (c :: rest) = true) := by
        rw [List.isPrefixOf_iff_prefix]
        intro hcon
        exact hc (List.cons_prefix_cons.mp hcon).1
      simp only [replaceGo, if_neg hpre]
      rw [ih rest (fun hm => h (List.mem_cons_of_mem _ hm))]

theorem trimWsL_eq_self {l : List Char}
    (h1 : ∃ c tl, l = c :: tl ∧ isWs c = false)
    (h2 : ∃ c tl, l.reverse = c :: tl ∧ isWs c = false) : trimWsL l = l := by
  obtain ⟨c, tl, rfl, hc⟩ := h1
  obtain ⟨c2, tl2, hrev, hc2⟩ := h2
  unfold trimWsL
  rw [List.dropWhile_cons, if_neg (by simp [hc]), hrev, List.dropWhile_cons,
    if_neg (by simp [hc2]), ← hrev, List.reverse_reverse]

theorem isWs_false_of_digit {c : Char} (h : c.isDigit = true) :
    isWs c = false := by
  cases e : isWs c
  · rfl
  · exfalso
    have hd := e
    simp only [isWs, Bool.or_eq_true, decide_eq_true_eq] at hd
    rcases hd with ((((rfl | rfl) | rfl) | rfl) | rfl) | rfl <;>
      exact absurd h (by decide)

theorem trimWsL_eq_self_of_all {l : List Char}
    (h : ∀ c ∈ l, isWs c = false) : trimWsL l = l := by
  cases l with
  | nil => rfl
  | cons c tl =>
    apply trimWsL_eq_self
    · exact ⟨c, tl, rfl, h c (List.mem_cons_self _ _)⟩
    · have hne : (c :: tl).reverse ≠ [] := by simp
      obtain ⟨c2, tl2, hrev⟩ := List.exists_cons_of_ne_nil hne
      refine ⟨c2, tl2, hrev, ?_⟩
      apply h
      rw [← List.mem_reverse, hrev]
      exact List.mem_cons_self _ _

theorem splitChar_append_sep (sep : Char) (a b : List Char) (h : sep ∉ a) :
    splitChar sep (a ++ sep :: b) = a :: splitChar sep b := by
  induction a with
  | nil => simp [splitChar]
  | cons c atl ih =>
    have hc : ¬(c = sep) := by
      intro hr
      exact h (by rw [← hr]; exact List.mem_cons_self _ _)
    simp only [List.cons_append, splitChar, if_neg hc, List.append_eq]
    rw [ih (fun hm => h (List.mem_cons_of_mem _ hm))]

theorem splitChar_no_sep (sep : Char) (a : List Char) (h : sep ∉ a) :
    splitChar sep a = [a] := by
  induction a with
  | nil => rfl
  | cons c atl ih =>
    have hc : ¬(c = sep) := by
      intro hr
      exact h (by rw [← hr]; exact List.mem_cons_self _ _)
    simp only [splitChar, if_neg hc]
    rw [ih (fun hm => h (List.mem_cons_of_mem _ hm))]

/-- Reduction of rename_columns on a column whose cleaned name splits into
a numeric first part and a second part carrying a quarter token. -/
theorem renameColL_eq_some (l p0 p1 : List Char) (rest : List (List Char))
    (qn : List Char)
    (hs : splitChar ' ' (cleanColNameL l) = p0 :: p1 :: rest)
    (hq : quarterNumL ((trimWsL p1).map Char.toLower) = some qn)
    (hy : isDigitStrL (trimWsL p0) = true) :
    renameColL l = trimWsL p0 ++ qn := by
  unfold renameColL
  rw [hs]
  simp only [hq, hy, if_true]

/-- Reduction of rename_columns on a column that is left unchanged: either
the cleaned name has fewer than two space-parts, or the second part has no
quarter token, or the first part is not numeric. -/
theorem renameColL_eq_self (l : List Char) (h : renameApplies l = false) :
    renameColL l = l := by
  unfold renameApplies at h
  cases e : splitChar ' ' (cleanColNameL l) with
  | nil =>
    unfold renameColL
    rw [e]
  | cons p0 tl =>
    cases tl with
    | nil =>
      unfold renameColL
      rw [e]
    | cons p1 rest =>
      rw [e] at h
      have hh : (isDigitStrL (trimWsL p0) &&
          (quarterNumL ((trimWsL p1).map Char.toLower)).isSome) = false := h
      have hred : renameColL l =
          (match quarterNumL ((trimWsL p1).map Char.toLower) with
            | some qn =>
              if isDigitStrL (trimWsL p0) then trimWsL p0 ++ qn else l
            | none => l) := by
        unfold renameColL
        rw [e]
      rw [hred]
      cases e2 : quarterNumL ((trimWsL p1).map Char.toLower) with
      | none => rfl
      | some qn =>
        rw [e2] at hh
        simp only [Option.isSome_some, Bool.and_true] at hh
        have hstep : (match some qn with
            | some qn =>
              if isDigitStrL (trimWsL p0) then trimWsL p0 ++ qn else l
            | none => l) =
            (if isDigitStrL (trimWsL p0) then trimWsL p0 ++ qn else l) := rfl
        rw [hstep, if_neg (by simp [hh])]

/-- The positive half of the rename behaviour: an all-digit year part, a
whitespace-free quarter part carrying a recognised token, and the word
quarter produce the concatenated year-quarter name. -/
theorem renameColL_year_ord (ys ordq qn : List Char)
    (hys : isDigitStrL ys = true)
    (hws : ∀ c ∈ ordq, isWs c = false)
    (hund : '_' ∉ ordq)
    (hq : quarterNumL (ordq.map Char.toLower) = some qn) :
    renameColL (ys ++ ' ' :: (ordq ++ ' ' :: quarterWord)) = ys ++ qn := by
  have hysne : ys ≠ [] := by
    intro hr
    rw [hr] at hys
    simp [isDigitStrL] at hys
  have hysd : ∀ c ∈ ys, c.isDigit = true := by
    intro c hc
    have h2 := hys
    simp only [isDigitStrL, Bool.and_eq_true, List.all_eq_true] at h2
    exact h2.2 c hc
  obtain ⟨y0, ytl, rfl⟩ := List.exists_cons_of_ne_nil hysne
  have hlmem : ∀ c ∈ (y0 :: ytl) ++ ' ' :: (ordq ++ ' ' :: quarterWord),
      c ∈ y0 :: ytl ∨ c = ' ' ∨ c ∈ ordq ∨ c ∈ quarterWord := by
    intro c hc
    simp only [List.mem_append, List.mem_cons] at hc ⊢
    tauto
  have hl_und : '_' ∉ (y0 :: ytl) ++ ' ' :: (ordq ++ ' ' :: quarterWord) := by
    intro hc
    rcases hlmem '_' hc with h | h | h | h
    · exact absurd (hysd '_' h) (by decide)
    · exact absurd h (by decide)
    · exact hund h
    · exact absurd h (by decide)
  have hl_nl : '\n' ∉ (y0 :: ytl) ++ ' ' :: (ordq ++ ' ' :: quarterWord) := by
    intro hc
    rcases hlmem '\n' hc with h | h | h | h
    · exact absurd (hysd '\n' h) (by decide)
    · exact absurd h (by decide)
    · exact absurd (hws '\n' h) (by decide)
    · exact absurd h (by decide)
  have hstep1 : cleanStep1 ((y0 :: ytl) ++ ' ' :: (ordq ++ ' ' :: quarterWord)) =
      (y0 :: ytl) ++ ' ' :: (ordq ++ ' ' :: quarterWord) :=
    replaceGo_no_head '_' _ _ _ _ hl_und
  have hstep2 : cleanStep2 ((y0 :: ytl) ++ ' ' :: (ordq ++ ' ' :: quarterWord)) =
      (y0 :: ytl) ++ ' ' :: (ordq ++ ' ' :: quarterWord) := by
    unfold cleanStep2
    rw [hstep1]
    exact replaceGo_no_head '\n' _ _ _ _ hl_nl
  have hstep3 : cleanStep3 ((y0 :: ytl) ++ ' ' :: (ordq ++ ' ' :: quarterWord)) =
      (y0 :: ytl) ++ ' ' :: (ordq ++ ' ' :: quarterWord) := by
    unfold cleanStep3
    rw [hstep2]
    exact replaceGo_no_head '_' _ _ _ _ hl_und
  have hlrev : ((y0 :: ytl) ++ ' ' :: (ordq ++ ' ' :: quarterWord)).reverse =
      'r' :: (['e', 't', 'r', 'a', 'u', 'q'] ++ ' ' ::
        (ordq.reverse ++ ' ' :: (y0 :: ytl).reverse)) := by
    simp [quarterWord, List.reverse_append, List.reverse_cons,
      List.append_assoc]
  have hclean : cleanColNameL ((y0 :: ytl) ++ ' ' :: (ordq ++ ' ' :: quarterWord)) =
      (y0 :: ytl) ++ ' ' :: (ordq ++ ' ' :: quarterWord) := by
    unfold cleanColNameL
    rw [hstep3]
    exact trimWsL_eq_self
      ⟨y0, ytl ++ ' ' :: (ordq ++ ' ' :: quarterWord), by simp,
        isWs_false_of_digit (hysd y0 (List.mem_cons_self _ _))⟩
      ⟨'r', _, hlrev, by decide⟩
  have hys_nosp : ' ' ∉ y0 :: ytl := fun hm => absurd (hysd ' ' hm) (by decide)
  have hord_nosp : ' ' ∉ ordq := fun hm => absurd (hws ' ' hm) (by decide)
  have hsplit : splitChar ' ' ((y0 :: ytl) ++ ' ' :: (ordq ++ ' ' :: quarterWord)) =
      (y0 :: ytl) :: ordq :: [quarterWord] := by
    rw [splitChar_append_sep _ _ _ hys_nosp,
      splitChar_append_sep _ _ _ hord_nosp,
      splitChar_no_sep _ _ (by decide)]
  have htrim0 : trimWsL (y0 :: ytl) = y0 :: ytl :=
    trimWsL_eq_self_of_all (fun c hc => isWs_false_of_digit (hysd c hc))
  have htrim1 : trimWsL ordq = ordq := trimWsL_eq_self_of_all hws
  have hmain := renameColL_eq_some
    ((y0 :: ytl) ++ ' ' :: (ordq ++ ' ' :: quarterWord)) (y0 :: ytl) ordq
    [quarterWord] qn (by rw [hclean]; exact hsplit)
    (by rw [htrim1]; exact hq) (by rw [htrim0]; exact hys)
  rw [hmain, htrim0]

/-- The quarter token found by substring containment is one of the four
two-digit values. -/
theorem quarterNumL_cases (q qn : List Char) (h : quarterNumL q = some qn) :
    qn = ['0', '1'] ∨ qn = ['0', '2'] ∨ qn = ['0', '3'] ∨ qn = ['0', '4'] := by
  unfold quarterNumL at h
  split_ifs at h <;> simp only [Option.some.injEq] at h <;> subst h <;> tauto

/-- When the rename applies, the new name genuinely differs from the old
one: the new name is all digits, and an all-digit name survives cleaning
unchanged and splits into a single space-part, contradicting the
two-part split the applicability hypothesis provides. -/
theorem renameApplies_true_changes (l p0 p1 : List Char)
    (rest : List (List Char)) (qn : List Char)
    (hs : splitChar ' ' (cleanColNameL l) = p0 :: p1 :: rest)
    (hy : isDigitStrL (trimWsL p0) = true)
    (hq : quarterNumL ((trimWsL p1).map Char.toLower) = some qn) :
    renameColL l ≠ l := by
  rw [renameColL_eq_some l p0 p1 rest qn hs hq hy]
  intro hcon
  have hdig : ∀ c ∈ trimWsL p0 ++ qn, c.isDigit = true := by
    intro c hc
    rcases List.mem_append.mp hc with h | h
    · simp only [isDigitStrL, Bool.and_eq_true, List.all_eq_true] at hy
      exact hy.2 c h
    · rcases quarterNumL_cases _ _ hq with rfl | rfl | rfl | rfl <;>
        · simp only [List.mem_cons, List.not_mem_nil, or_false] at h
          rcases h with rfl | rfl <;> decide
  rw [← hcon] at hs
  have hnund : '_' ∉ trimWsL p0 ++ qn :=
    fun hm => absurd (hdig '_' hm) (by decide)
  have hnnl : '\n' ∉ trimWsL p0 ++ qn :=
    fun hm => absurd (hdig '\n' hm) (by decide)
  have hclean : cleanColNameL (trimWsL p0 ++ qn) = trimWsL p0 ++ qn := by
    unfold cleanColNameL cleanStep3 cleanStep2 cleanStep1
    rw [replaceGo_no_head '_' _ _ _ _ hnund,
      replaceGo_no_head '\n' _ _ _ _ hnnl,
      replaceGo_no_head '_' _ _ _ _ hnund]
    exact trimWsL_eq_self_of_all (fun c hc => isWs_false_of_digit (hdig c hc))
  rw [hclean] at hs
  have hnsp : ' ' ∉ trimWsL p0 ++ qn :=
    fun hm => absurd (hdig ' ' hm) (by decide)
  rw [splitChar_no_sep ' ' _ hnsp] at hs
  have hlen := congrArg List.length hs
  simp at hlen

/-- C7 amended: rename_columns maps every column whose cleaned name splits
into an all-digit first part and a second part containing a recognised
ordinal token to the concatenation of the digits and the two-digit quarter
number qn determined by that token — in particular every name of the
claimed shape year, ordinal, quarter is renamed that way, so 2024 1st
quarter becomes 202401 and 1999 3rd quarter becomes 199903 — but the word
quarter itself is never verified; a column is left unchanged exactly when
the cleaned name has fewer than two space-parts, a non-numeric first part,
or a second part with no ordinal token. -/
theorem claim_C7_rename_columns_amended :
    (∀ (l p0 p1 : List Char) (rest : List (List Char)) (qn : List Char),
      splitChar ' ' (cleanColNameL l) = p0 :: p1 :: rest →
      isDigitStrL (trimWsL p0) = true →
      quarterNumL ((trimWsL p1).map Char.toLower) = some qn →
      rename_column ⟨l⟩ = ⟨trimWsL p0 ++ qn⟩) ∧
    (∀ (ys : List Char) (q : Nat), isDigitStrL ys = true →
      q = 1 ∨ q = 2 ∨ q = 3 ∨ q = 4 →
      rename_column ⟨ys ++ ' ' :: (ordToken q ++ ' ' :: quarterWord)⟩ =
        ⟨ys ++ qqToken q⟩) ∧
    (∀ s : String, rename_column s = s ↔ renameApplies s.data = false) := by
  refine ⟨?_, ?_, ?_⟩
  · intro l p0 p1 rest qn hs hy hq
    exact congrArg String.mk (renameColL_eq_some l p0 p1 rest qn hs hq hy)
  · intro ys q hys hq
    have hcore : renameColL (ys ++ ' ' :: (ordToken q ++ ' ' :: quarterWord)) =
        ys ++ qqToken q := by
      rcases hq with rfl | rfl | rfl | rfl <;>
        exact renameColL_year_ord ys _ _ hys (by decide) (by decide) (by decide)
    exact congrArg String.mk hcore
  · intro s
    constructor
    · intro h
      by_contra hap
      have hap2 : renameApplies s.data = true := by
        cases e : renameApplies s.data
        · exact absurd e hap
        · rfl
      unfold renameApplies at hap2
      cases e : splitChar ' ' (cleanColNameL s.data) with
      | nil =>
        rw [e] at hap2
        exact Bool.false_ne_true hap2
      | cons p0 tl =>
        cases tl with
        | nil =>
          rw [e] at hap2
          exact Bool.false_ne_true hap2
        | cons p1 rest =>
          rw [e] at hap2
          have hap3 : (isDigitStrL (trimWsL p0) &&
              (quarterNumL ((trimWsL p1).map Char.toLower)).isSome) = true :=
            hap2
          simp only [Bool.and_eq_true, Option.isSome_iff_exists] at hap3
          obtain ⟨hy, qn, hq⟩ := hap3
          exact renameApplies_true_changes s.data p0 p1 rest qn e hy hq
            (congrArg String.data h)
    · intro h
      exact congrArg String.mk (renameColL_eq_self s.data h)

/-- C7 witness: the amended theorem applied to the round-trip examples of
the claim, to two non-canonical names inside the general rule — a
twenty-first ordinal and an underscore-and-bracket annotated header — and
to an untouched label column. -/
theorem claim_C7_rename_columns_amended_witness :
    rename_column "2024 1st quarter" = "202401" ∧
    rename_column "1999 3rd quarter" = "199903" ∧
    rename_column "2024 21st quarter" = "202401" ∧
    rename_column "2023_1st_quarter_[note_3]" = "202301" ∧
    rename_column "Category" = "Category" := by
  refine ⟨?_, ?_, ?_, ?_, ?_⟩
  · have h := claim_C7_rename_columns_amended.2.1 "2024".data 1 (by decide)
      (Or.inl rfl)
    rw [show ("2024 1st quarter" : String) =
      ⟨"2024".data ++ ' ' :: (ordToken 1 ++ ' ' :: quarterWord)⟩ by decide]
    rw [h]
    decide
  · have h := claim_C7_rename_columns_amended.2.1 "1999".data 3 (by decide)
      (Or.inr (Or.inr (Or.inl rfl)))
    rw [show ("1999 3rd quarter" : String) =
      ⟨"1999".data ++ ' ' :: (ordToken 3 ++ ' ' :: quarterWord)⟩ by decide]
    rw [h]
    decide
  · have h := claim_C7_rename_columns_amended.1 "2024 21st quarter".data
      "2024".data "21st".data ["quarter".data] "01".data (by decide)
      (by decide) (by decide)
    exact h.trans (by decide)
  · have h := claim_C7_rename_columns_amended.1
      "2023_1st_quarter_[note_3]".data "2023".data "1st".data
      ["quarter".data, "[note".data, "3]".data] "01".data (by decide)
      (by decide) (by decide)
    exact h.trans (by decide)
  · exact (claim_C7_rename_columns_amended.2.2 "Category").mpr (by decide)

end EnergyTrend
